import Mathlib

/-!
Verification development for the dumpyara partition pipeline.

The Python source (src/dumpyara/utils/partitions.py and src/dumpyara/dumpyara.py)
is shallowly embedded below:

* a staging directory of raw image files is a list of `FSFile` (name and byte
  content, bytes abstracted as a `String`);
* Python `pathlib` filename operations (`Path.suffixes`, `str.endswith`,
  slicing, `removesuffix`) are implemented over the underlying character lists
  exactly following their CPython semantics;
* the partition registry (`PARTITIONS`, `ALTERNATIVE_PARTITION_NAMES`) is
  copied verbatim, as ordered association lists (Python dicts preserve
  insertion order);
* `correct_ab_filenames`, `fix_aliases`, `extract_partitions` and
  `prepare_raw_images` are translated from the source; filesystem iteration
  (`Path.iterdir`) is modelled as iterating over a snapshot of the directory
  entry names, re-checking existence at processing time just as the source
  does with `file.is_file()`; exceptions are modelled with `Except` / an
  optional error component (`shutil.move` on a missing source raises
  `FileNotFoundError`);
* the orchestrator `dumpyara` is embedded with its external collaborators
  (archive unpacker, raw image materializer, boot image unpacker, 7z
  filesystem extractor, locale collation) abstracted as oracle parameters,
  since those collaborators live outside the embedded core.
-/

/-! ## Character-list filename utilities

CPython semantics that the source relies on:
`Path.suffixes` is `[] if name ends with "." else ["." + s for s in
name.lstrip(".").split(".")[1:]]`; `str.removesuffix(s)` drops `s` when it is
a suffix; `str.endswith`, `s[-2:]` are ordinary suffix operations.
-/

/-- Python `name.split(".")` on a character list. -/
def splitOnDot : List Char → List (List Char)
  | [] => [[]]
  | c :: rest =>
    if c = '.' then [] :: splitOnDot rest
    else
      match splitOnDot rest with
      | [] => [[c]]
      | p :: ps => (c :: p) :: ps

/-- Python `"".join("." + s for s in parts)`. -/
def joinDotted : List (List Char) → List Char
  | [] => []
  | p :: ps => ('.' :: p) ++ joinDotted ps

/-- Python `name.lstrip(".")`. -/
def dropDots (l : List Char) : List Char := l.dropWhile (fun c => c = '.')

/-- The concatenation of `Path(name).suffixes`, CPython semantics. -/
def suffixesList (l : List Char) : List Char :=
  if l.getLast? = some '.' then []
  else joinDotted ((splitOnDot (dropDots l)).drop 1)

/-- Python `str.removesuffix` on character lists. -/
def removesuffixList (l suf : List Char) : List Char :=
  if suf.isSuffixOf l then l.take (l.length - suf.length) else l

/-- `get_filename_suffixes` from partitions.py: `"".join(file.suffixes)`,
applied to a file name. -/
def get_filename_suffixes (n : String) : String := ⟨suffixesList n.data⟩

/-- `get_filename_without_extensions` from partitions.py:
`removesuffix(str(file.name), get_filename_suffixes(file))`. -/
def get_filename_without_extensions (n : String) : String :=
  ⟨removesuffixList n.data (suffixesList n.data)⟩

/-- Python `s.endswith(t)`. -/
def strEndsWith (s t : String) : Bool := t.data.isSuffixOf s.data

/-- Python `s[-k:]` (for `k ≤ len s`, which is how the source uses it). -/
def strTakeRight (s : String) (k : Nat) : String :=
  ⟨s.data.drop (s.data.length - k)⟩

/-- Python `removesuffix(s, t)` from sebaubuntu_libs.libstring. -/
def strRemovesuffix (s t : String) : String := ⟨removesuffixList s.data t.data⟩

/-! ## Staging directory model -/

/-- A regular file in the raw-images staging directory: relative file name and
(abstract) byte content. -/
structure FSFile where
  name : String
  content : String
  deriving DecidableEq, Repr, BEq

/-- A flat directory of regular files. -/
abbrev FS := List FSFile

/-- Python `(dir / n).is_file()` / `.exists()` (the model only holds regular
files, for which the two agree). -/
def FS.isFile (fs : FS) (n : String) : Bool := fs.any (fun f => f.name == n)

/-- Python `(dir / n).unlink()`. -/
def FS.unlink (fs : FS) (n : String) : FS := fs.filter (fun f => !(f.name == n))

/-- Content of file `n` (call sites guard existence like the source does). -/
def FS.read (fs : FS) (n : String) : String :=
  ((fs.find? (fun f => f.name == n)).map FSFile.content).getD ""

/-- Python `shutil.move(src, dst)` for an existing regular file `src` inside
one directory: `dst` is replaced if present.  (The source only calls `move`
with `src` present; a missing `src` raises, which call sites model
explicitly.) -/
def FS.move (fs : FS) (src dst : String) : FS :=
  let c := fs.read src
  (fs.filter (fun f => !(f.name == src) && !(f.name == dst))) ++ [⟨dst, c⟩]

/-! ## Partition registry (partitions.py lines 19-113, verbatim) -/

def FILESYSTEM : Nat := 0
def BOOTIMAGE : Nat := 1
def RAW : Nat := 2

/-- `PARTITIONS` dict from partitions.py, in declaration order. -/
def PARTITIONS : List (String × Nat) := [
  ("boot", BOOTIMAGE),
  ("dtbo", RAW),
  ("recovery", BOOTIMAGE),
  ("vendor_boot", BOOTIMAGE),
  ("exaid", BOOTIMAGE),
  ("rescue", BOOTIMAGE),
  ("tz", RAW),
  ("odm", FILESYSTEM),
  ("odm_dlkm", FILESYSTEM),
  ("oem", FILESYSTEM),
  ("product", FILESYSTEM),
  ("system", FILESYSTEM),
  ("system_dlkm", FILESYSTEM),
  ("system_ext", FILESYSTEM),
  ("system_other", FILESYSTEM),
  ("vendor", FILESYSTEM),
  ("vendor_dlkm", FILESYSTEM),
  ("cust", FILESYSTEM),
  ("factory", FILESYSTEM),
  ("india", FILESYSTEM),
  ("modem", FILESYSTEM),
  ("my_bigball", FILESYSTEM),
  ("my_carrier", FILESYSTEM),
  ("my_company", FILESYSTEM),
  ("my_country", FILESYSTEM),
  ("my_custom", FILESYSTEM),
  ("my_engineering", FILESYSTEM),
  ("my_heytap", FILESYSTEM),
  ("my_manifest", FILESYSTEM),
  ("my_odm", FILESYSTEM),
  ("my_operator", FILESYSTEM),
  ("my_preload", FILESYSTEM),
  ("my_product", FILESYSTEM),
  ("my_region", FILESYSTEM),
  ("my_stock", FILESYSTEM),
  ("my_version", FILESYSTEM),
  ("odm_ext", FILESYSTEM),
  ("oppo_product", FILESYSTEM),
  ("opproduct", FILESYSTEM),
  ("preload_common", FILESYSTEM),
  ("reserve", FILESYSTEM),
  ("special_preload", FILESYSTEM),
  ("systemex", FILESYSTEM),
  ("xrom", FILESYSTEM)]

/-- `ALTERNATIVE_PARTITION_NAMES` dict from partitions.py. -/
def ALTERNATIVE_PARTITION_NAMES : List (String × String) := [
  ("boot-verified", "boot"),
  ("dtbo-verified", "dtbo"),
  ("NON-HLOS", "modem")]

/-- `get_partition_name`: the unaliased partition name. -/
def get_partition_name (partition_name : String) : String :=
  ((ALTERNATIVE_PARTITION_NAMES.lookup partition_name).getD partition_name)

/-- `get_partition_names`: `list(PARTITIONS)` (the keys, declaration order). -/
def get_partition_names : List String := PARTITIONS.map Prod.fst

/-- `get_partition_names_with_alias`. -/
def get_partition_names_with_alias : List String :=
  get_partition_names ++ ALTERNATIVE_PARTITION_NAMES.map Prod.fst

/-- `get_partition_names_with_ab`. -/
def get_partition_names_with_ab : List String :=
  get_partition_names_with_alias.foldl
    (fun acc partition => acc ++ [partition, partition ++ "_a", partition ++ "_b"]) []

/-- The partition token of a file name: strip the extensions, then a trailing
slot suffix, exactly the decomposition `correct_ab_filenames` performs
(spec §3, RawImageFile).  Used to state claims about unrecognized tokens. -/
def base_token (n : String) : String :=
  let stem := get_filename_without_extensions n
  if strEndsWith stem "_a" || strEndsWith stem "_b" then
    strRemovesuffix stem (strTakeRight stem 2)
  else stem

/-! ## AliasResolver: `fix_aliases` (partitions.py lines 122-136)

The source iterates `ALTERNATIVE_PARTITION_NAMES.items()`; for each pair it
skips when the alias file is absent; when the canonical file already exists it
logs and unlinks the alias file, and then — with no `continue` — falls through
to `move(alt_path, partition_path)`, which raises `FileNotFoundError` because
the source of the move was just unlinked.  The run function returns the
directory state together with the exception, if one was raised (the exception
aborts the remaining iterations). -/

def fix_aliases_run (images : FS) : List (String × String) → FS × Option String
  | [] => (images, none)
  | (alt_name, name) :: rest =>
    let alt_path := alt_name ++ ".img"
    let partition_path := name ++ ".img"
    if !images.isFile alt_path then fix_aliases_run images rest
    else
      let images1 := if images.isFile partition_path then images.unlink alt_path else images
      if images1.isFile alt_path then
        fix_aliases_run (images1.move alt_path partition_path) rest
      else (images1, some ("FileNotFoundError: " ++ alt_path))

/-- `fix_aliases(images_path)`: the propagated exception, or the final state on
a normal return. -/
def fix_aliases (images : FS) : Except String FS :=
  match fix_aliases_run images ALTERNATIVE_PARTITION_NAMES with
  | (images2, none) => Except.ok images2
  | (_, some e) => Except.error e

/-! ## SlotResolver: `correct_ab_filenames` (partitions.py lines 172-205)

`Path.iterdir` is modelled as a snapshot of the entry names taken when the
loop starts; each entry is re-checked with `is_file()` at processing time,
exactly the check the source performs before touching it. -/

/-- The body of the `for file in images_path.iterdir()` loop, for the entry
named `fname`, acting on the current directory state. -/
def cab_step (images : FS) (fname : String) : FS :=
  if !images.isFile fname then images
  else
    let file_stem := get_filename_without_extensions fname
    if !strEndsWith file_stem "_a" && !strEndsWith file_stem "_b" then images
    else
      let suffix2 := strTakeRight file_stem 2
      let file_stem_unslotted := strRemovesuffix file_stem suffix2
      if !(get_partition_names_with_alias.contains file_stem_unslotted) then images
      else
        let fsuffixes := get_filename_suffixes fname
        let non_ab_partition_path := file_stem_unslotted ++ fsuffixes
        let a_partition_path := file_stem_unslotted ++ "_a" ++ fsuffixes
        let b_partition_path := file_stem_unslotted ++ "_b" ++ fsuffixes
        if images.isFile non_ab_partition_path then images.unlink fname
        else if images.isFile a_partition_path then
          images.move a_partition_path non_ab_partition_path
        else if images.isFile b_partition_path then
          images.move b_partition_path non_ab_partition_path
        else images

/-- `correct_ab_filenames(images_path)`.  The list order of `images` is the
directory enumeration order. -/
def correct_ab_filenames (images : FS) : FS :=
  (images.map FSFile.name).foldl cab_step images

/-! ## PartitionExtractor: `extract_partitions` (partitions.py lines 138-164)

The two collaborators are oracles: `bootO` is `extract_bootimg` (any raised
exception is caught by the bare `except Exception`), `fsO` is `sevenz`, whose
failure contract (spec §6) is a `CalledProcessError` carrying the tool output,
caught by the `except CalledProcessError`.  The observable behaviour of one
loop iteration is recorded as a list of events: the "Extracting" log line, the
dispatch attempt with its outcome, and the raw-image copy-back. -/

deriving instance DecidableEq for Except

inductive ExtractEvent where
  | extracting (partition : String)
  | bootAttempt (partition : String) (result : Except String Unit)
  | fsAttempt (partition : String) (result : Except String Unit)
  | rawCopy (partition : String) (content : String)
  deriving DecidableEq, Repr, BEq

/-- Partition name an event refers to. -/
def event_partition : ExtractEvent → String
  | ExtractEvent.extracting p => p
  | ExtractEvent.bootAttempt p _ => p
  | ExtractEvent.fsAttempt p _ => p
  | ExtractEvent.rawCopy p _ => p

/-- One iteration of the `for partition in get_partition_names()` loop; the
registry pair `(partition, partition_type)` replaces the in-loop dict lookup
`PARTITIONS[partition]` (the keys are exactly the iterated names). -/
def events_for (bootO fsO : String → Except String Unit) (raw_images : FS)
    (pt : String × Nat) : List ExtractEvent :=
  let partition := pt.1
  let partition_type := pt.2
  let image_name := partition ++ ".img"
  if !raw_images.isFile image_name then []
  else
    [ExtractEvent.extracting partition]
    ++ (if partition_type == BOOTIMAGE then
          [ExtractEvent.bootAttempt partition (bootO image_name)]
        else if partition_type == FILESYSTEM then
          [ExtractEvent.fsAttempt partition (fsO image_name)]
        else [])
    ++ (if partition_type == RAW || partition_type == BOOTIMAGE then
          [ExtractEvent.rawCopy partition (raw_images.read image_name)]
        else [])

/-- `extract_partitions(raw_images_path, output_path)`: the sequence of
observable events of the whole loop.  Both collaborator failures are caught
inside the loop body, so the function itself always returns. -/
def extract_partitions (bootO fsO : String → Except String Unit)
    (raw_images : FS) : List ExtractEvent :=
  PARTITIONS.foldl (fun evs pt => evs ++ events_for bootO fsO raw_images pt) []

/-- The "Extracting {partition}" log lines, in order. -/
def extracting_log (evs : List ExtractEvent) : List String :=
  evs.filterMap (fun ev =>
    match ev with
    | ExtractEvent.extracting p => some p
    | _ => none)

/-! ## Pipeline orchestrator: `dumpyara` (dumpyara.py lines 16-64)

`dumpyara.py` is in the embedded core; its collaborators are not
(`steps/step_1..3`, `utils/files`, `lib/libsevenz`, `utils/raw_image`,
`utils/bootimg`, `sebaubuntu_libs`), so they are oracles, modelled from the
spec (§4.5, §6): `unpack` is the archive unpacker (step 1, failure
propagates); `materialize` is `get_raw_image` (step 2; `some` content when a
source file for the token exists, `none` is a silent skip); `bootTree` /
`fsTree` are the trees the two extraction collaborators leave under the
per-partition output directory; `collLE` is the locale collation predicate
used as the sort key for `all_files.txt`. -/

structure DumpOracles where
  unpack : Except String FS
  materialize : String → Option String
  bootO : String → Except String Unit
  fsO : String → Except String Unit
  bootTree : String → List (String × String)
  fsTree : String → List (String × String)
  collLE : String → String → Bool

/-- `prepare_raw_images` (partitions.py lines 115-120): materialize
`<name>.img` for every name-with-slot-variant into the raw images temp dir
(`get_raw_image` modelled from the spec: raw image materializer, absent
source skipped silently). -/
def prepare_raw_images (materialize : String → Option String) : FS :=
  get_partition_names_with_ab.foldl
    (fun images partition_name =>
      match materialize partition_name with
      | some c => images ++ [⟨partition_name ++ ".img", c⟩]
      | none => images) []

/-- Files the loop body of `extract_partitions` writes into the output
directory (modelled from the spec: per-partition output subdirectory trees
are produced by the collaborators, the raw copy by `copyfile`). -/
def event_outputs (O : DumpOracles) : ExtractEvent → List (String × String)
  | ExtractEvent.extracting _ => []
  | ExtractEvent.bootAttempt p _ => (O.bootTree p).map (fun nc => (p ++ "/" ++ nc.1, nc.2))
  | ExtractEvent.fsAttempt p _ => (O.fsTree p).map (fun nc => (p ++ "/" ++ nc.1, nc.2))
  | ExtractEvent.rawCopy p c => [(p ++ ".img", c)]

/-- Stable insertion into a sorted list (Python `sorted` modelled from the
spec: deterministic comparison-based sort by the collation key). -/
def insertSorted (le : String → String → Bool) (x : String) : List String → List String
  | [] => [x]
  | y :: ys => if le x y then x :: y :: ys else y :: insertSorted le x ys

/-- Python `sorted(paths, key=strcoll_files_key)`, modelled from the spec as
an insertion sort by the collation predicate. -/
def sortColl (le : String → String → Bool) (l : List String) : List String :=
  l.foldr (insertSorted le) []

/-- The recursive relative file listing of the output directory taken in
step 4 (modelled from the spec: `get_recursive_files_list(path,
relative=True)` lists every file under the output directory, which at that
moment still contains both temporary subdirectories), sorted by collation. -/
def manifest_paths (O : DumpOracles) (outFiles : List (String × String))
    (archiveFiles rawImages : FS) : List String :=
  sortColl O.collLE
    ((outFiles.map Prod.fst)
      ++ (archiveFiles.map (fun f => "temp_extracted_archive/" ++ f.name))
      ++ (rawImages.map (fun f => "temp_raw_images/" ++ f.name)))

/-- State of the output directory `output_path / file.stem` after a run. -/
structure DumpState where
  outFiles : List (String × String)
  tempExtracted : Option FS
  tempRaw : Option FS
  deriving DecidableEq, Repr

/-- Result of a `dumpyara` invocation: the returned path (`Except.ok`) or the
propagated exception, plus the final output directory state. -/
structure DumpResult where
  outcome : Except String Unit
  state : DumpState
  deriving DecidableEq, Repr

/-- The `finally` block (dumpyara.py lines 57-64): remove the temporary
directories if they exist, unless running in debug mode
(`rmtree_recursive` modelled from the spec: recursive removal). -/
def cleanup (debug : Bool) (st : DumpState) : DumpState :=
  if debug then st else { st with tempExtracted := none, tempRaw := none }

/-- The output files written on the success path: partition trees and raw
copies in event order. -/
def dump_outputs (O : DumpOracles) (raw2 : FS) : List (String × String) :=
  (extract_partitions O.bootO O.fsO raw2).flatMap (event_outputs O)

/-- `dumpyara(file, output_path, debug)` (dumpyara.py lines 16-64).
`pre` is the pre-existing state of `output_path / file.stem` if that
directory already exists (`path.mkdir(parents=True)` then raises
`FileExistsError`); steps 1-3 are the spec §4.5 sequence
(step 2 runs `prepare_raw_images`, then SlotResolver, then AliasResolver);
every exit path runs the `finally` cleanup. -/
def dumpyara (O : DumpOracles) (pre : Option DumpState) (debug : Bool) : DumpResult :=
  match pre with
  | some st =>
    { outcome := Except.error "FileExistsError", state := cleanup debug st }
  | none =>
    match O.unpack with
    | Except.error e =>
      { outcome := Except.error e, state := cleanup debug ⟨[], some [], some []⟩ }
    | Except.ok archiveFiles =>
      let raw0 := prepare_raw_images O.materialize
      let raw1 := correct_ab_filenames raw0
      match fix_aliases_run raw1 ALTERNATIVE_PARTITION_NAMES with
      | (rawPartial, some e) =>
        { outcome := Except.error e,
          state := cleanup debug ⟨[], some archiveFiles, some rawPartial⟩ }
      | (raw2, none) =>
        let outs := dump_outputs O raw2
        let paths := manifest_paths O outs archiveFiles raw2
        let manifest := String.intercalate "\n" paths ++ "\n"
        { outcome := Except.ok (),
          state := cleanup debug
            ⟨outs ++ [("all_files.txt", manifest)], some archiveFiles, some raw2⟩ }

/-! ## Auxiliary definitions for stating the claims -/

/-- A staging file on which a `correct_ab_filenames` visit can act: its
stripped stem ends in a slot suffix and the unslotted token is recognized
(the two skip tests of partitions.py lines 182-191). -/
def slot_actionable (f : FSFile) : Bool :=
  let file_stem := get_filename_without_extensions f.name
  (strEndsWith file_stem "_a" || strEndsWith file_stem "_b")
    && get_partition_names_with_alias.contains
         (strRemovesuffix file_stem (strTakeRight file_stem 2))

/-- Behaviour of SlotResolver on the dual-slot state for token `t`
(`t_a.img` and `t_b.img` present, `t.img` absent), for both directory
iteration orders: the a-slot file is promoted to `t.img` in either order,
while the b-slot file is deleted when visited after `t_a.img` and left as an
orphan when visited before it. -/
def c3_check (t : String) : Bool :=
  let ta := t ++ "_a.img"
  let tb := t ++ "_b.img"
  let tu := t ++ ".img"
  decide (correct_ab_filenames [⟨ta, "A"⟩, ⟨tb, "B"⟩] = [⟨tu, "A"⟩])
    && decide (correct_ab_filenames [⟨tb, "B"⟩, ⟨ta, "A"⟩] = [⟨tb, "B"⟩, ⟨tu, "A"⟩])

/-- A concrete deterministic oracle assignment: the archive unpacks to one
file, only `system` has a source image, both extraction tools succeed. -/
def O0 : DumpOracles where
  unpack := Except.ok [⟨"pkg.bin", "P"⟩]
  materialize := fun t => if t = "system" then some "S" else none
  bootO := fun _ => Except.ok ()
  fsO := fun _ => Except.ok ()
  bootTree := fun _ => []
  fsTree := fun _ => [("etc/build.prop", "c")]
  collLE := fun _ _ => true

/-- A concrete oracle assignment whose only raw image is the boot image. -/
def O1 : DumpOracles where
  unpack := Except.ok [⟨"pkg.bin", "P"⟩]
  materialize := fun t => if t = "boot" then some "K" else none
  bootO := fun _ => Except.ok ()
  fsO := fun _ => Except.ok ()
  bootTree := fun _ => [("kernel", "k")]
  fsTree := fun _ => []
  collLE := fun _ _ => true

/-- A pre-existing output directory holding one regular file and a leftover
`temp_raw_images` subdirectory (e.g. the residue of an earlier debug run). -/
def st0 : DumpState where
  outFiles := [("keep.txt", "K")]
  tempExtracted := none
  tempRaw := some [⟨"x.img", "X"⟩]

/-! ## Basic lemmas about the staging directory model -/

set_option maxRecDepth 10000
set_option maxHeartbeats 2000000

instance (p : α → Prop) [DecidablePred p] (l : List α) : Decidable (∀ x ∈ l, p x) :=
  List.decidableBAll p l

def decMemList [DecidableEq α] (a : α) : (l : List α) → Decidable (a ∈ l)
  | [] => isFalse (List.not_mem_nil a)
  | x :: l => @decidable_of_iff _ (a = x ∨ a ∈ l) (List.mem_cons).symm (@instDecidableOr _ _ _ (decMemList a l))

instance [DecidableEq α] (a : α) (l : List α) : Decidable (a ∈ l) := decMemList a l

theorem FS.mem_isFile {fs : FS} {f : FSFile} (h : f ∈ fs) : fs.isFile f.name = true := by
  simp only [FS.isFile, List.any_eq_true, beq_iff_eq]
  exact ⟨f, h, rfl⟩

theorem FS.ne_of_not_isFile {fs : FS} {f : FSFile} {n : String} (h : f ∈ fs)
    (hn : fs.isFile n = false) : f.name ≠ n := by
  intro e
  rw [← e, FS.mem_isFile h] at hn
  exact Bool.true_eq_false.mp hn

theorem FS.mem_unlink {fs : FS} {f : FSFile} {n : String} (h : f ∈ fs)
    (hne : f.name ≠ n) : f ∈ fs.unlink n := by
  simp only [FS.unlink, List.mem_filter, Bool.not_eq_eq_eq_not, Bool.not_true, beq_eq_false_iff_ne]
  exact ⟨h, hne⟩

theorem FS.mem_move {fs : FS} {f : FSFile} {src dst : String} (h : f ∈ fs)
    (h1 : f.name ≠ src) (h2 : f.name ≠ dst) : f ∈ fs.move src dst := by
  simp only [FS.move, List.mem_append, List.mem_filter, Bool.and_eq_true,
    Bool.not_eq_eq_eq_not, Bool.not_true, beq_eq_false_iff_ne]
  exact Or.inl ⟨h, h1, h2⟩

/-! ## Generic fold lemmas -/

theorem foldl_append_eq_flatMap {α β : Type} (g : α → List β) :
    ∀ (l : List α) (init : List β),
      l.foldl (fun acc x => acc ++ g x) init = init ++ l.flatMap g
  | [], init => by simp
  | x :: l, init => by
    rw [List.foldl_cons, foldl_append_eq_flatMap g l, List.flatMap_cons, List.append_assoc]

theorem extract_partitions_eq_flatMap (bootO fsO : String → Except String Unit)
    (raw_images : FS) :
    extract_partitions bootO fsO raw_images
      = PARTITIONS.flatMap (events_for bootO fsO raw_images) := by
  rw [extract_partitions, foldl_append_eq_flatMap, List.nil_append]

/-! ## C1: alias collision -/

/-- C1: the claim says that with both `boot-verified.img` and `boot.img`
present, `fix_aliases` deletes the alternative file and returns normally.
The code does delete it, but the missing `continue` then makes it call
`shutil.move` on the just-deleted path: `fix_aliases` raises
`FileNotFoundError` instead of returning (evaluated here at the failing
input; the state component confirms the alias file was already unlinked when
the exception was raised). -/
theorem C1_fix_aliases_collision_raises :
    fix_aliases [⟨"boot-verified.img", "V"⟩, ⟨"boot.img", "B"⟩]
        = Except.error "FileNotFoundError: boot-verified.img"
      ∧ fix_aliases_run [⟨"boot-verified.img", "V"⟩, ⟨"boot.img", "B"⟩]
          ALTERNATIVE_PARTITION_NAMES
        = ([⟨"boot.img", "B"⟩], some "FileNotFoundError: boot-verified.img") :=
  And.intro rfl rfl

/-! ## C6: redundant slotted file deleted, canonical file untouched -/

/-- C6: with `system.img` and `system_b.img` both present (either directory
iteration order), `correct_ab_filenames` deletes `system_b.img` and leaves
`system.img` with its exact pre-run content. -/
theorem C6_system_b_deleted_system_kept (ca cb : String) :
    correct_ab_filenames [⟨"system.img", ca⟩, ⟨"system_b.img", cb⟩]
        = [⟨"system.img", ca⟩]
      ∧ correct_ab_filenames [⟨"system_b.img", cb⟩, ⟨"system.img", ca⟩]
        = [⟨"system.img", ca⟩] := by
  constructor
  · show List.foldl cab_step [⟨"system.img", ca⟩, ⟨"system_b.img", cb⟩]
      ["system.img", "system_b.img"] = [⟨"system.img", ca⟩]
    rw [List.foldl_cons, List.foldl_cons, List.foldl_nil]
    have h1 : cab_step [⟨"system.img", ca⟩, ⟨"system_b.img", cb⟩] "system.img"
        = [⟨"system.img", ca⟩, ⟨"system_b.img", cb⟩] := rfl
    rw [h1]
    exact rfl
  · show List.foldl cab_step [⟨"system_b.img", cb⟩, ⟨"system.img", ca⟩]
      ["system_b.img", "system.img"] = [⟨"system.img", ca⟩]
    rw [List.foldl_cons, List.foldl_cons, List.foldl_nil]
    have h1 : cab_step [⟨"system_b.img", cb⟩, ⟨"system.img", ca⟩] "system_b.img"
        = [⟨"system.img", ca⟩] := rfl
    rw [h1]
    exact rfl

/-! ## C3: dual-slot case -/

/-- C3 counterexample: for token `vendor` with `vendor_a.img` and
`vendor_b.img` present and `vendor.img` absent, when the directory iteration
visits `vendor_a.img` first the later visit of `vendor_b.img` finds
`vendor.img` (just promoted from the a slot) and unlinks `vendor_b.img` —
so the b-slot file is NOT left in place for every iteration order, refuting
the claim at this input. -/
theorem C3_counterexample_b_slot_deleted :
    correct_ab_filenames [⟨"vendor_a.img", "A"⟩, ⟨"vendor_b.img", "B"⟩]
        = [⟨"vendor.img", "A"⟩]
      ∧ (correct_ab_filenames
          [⟨"vendor_a.img", "A"⟩, ⟨"vendor_b.img", "B"⟩]).isFile "vendor_b.img"
        = false := by
  exact And.intro (by decide) (by decide)

/-- C3 amended: for every recognized partition token `t` (registry or alias
name), on the state with exactly `t_a.img` and `t_b.img` present and `t.img`
absent, `correct_ab_filenames` renames `t_a.img` to `t.img` under either
iteration order; `t_b.img` is deleted when visited after `t_a.img` and left
in place (un-renamed, un-deleted) when visited before it. -/
theorem C3_amended_dual_slot_order :
    get_partition_names_with_alias.all c3_check = true := by decide

/-! ## C7: idempotence of SlotResolver -/

/-- C7 counterexample: starting from `vendor_b.img`, `vendor_a.img` (b-slot
file visited first), the first run promotes the a slot and strands
`vendor_b.img`; the second run then deletes `vendor_b.img`, so the second
run is not a no-op on the file set, refuting the claim at this input. -/
theorem C7_counterexample_not_idempotent :
    correct_ab_filenames
        (correct_ab_filenames [⟨"vendor_b.img", "B"⟩, ⟨"vendor_a.img", "A"⟩])
      ≠ correct_ab_filenames [⟨"vendor_b.img", "B"⟩, ⟨"vendor_a.img", "A"⟩] := by
  decide

theorem cab_step_eq_of_inactive {images : FS}
    (h : ∀ f ∈ images, slot_actionable f = false) (n : String) :
    cab_step images n = images := by
  cases h1 : images.isFile n with
  | false => simp [cab_step, h1]
  | true =>
    obtain ⟨f, hf, hname⟩ : ∃ f ∈ images, f.name = n := by
      simpa only [FS.isFile, List.any_eq_true, beq_iff_eq] using h1
    have hact := h f hf
    simp only [slot_actionable, hname] at hact
    cases hA : strEndsWith (get_filename_without_extensions n) "_a" with
    | true =>
      simp only [hA, Bool.true_or, Bool.true_and] at hact
      have hmem : strRemovesuffix (get_filename_without_extensions n)
          (strTakeRight (get_filename_without_extensions n) 2)
            ∉ get_partition_names_with_alias := by
        simpa using hact
      simp [cab_step, h1, hA, hmem]
    | false =>
      cases hB : strEndsWith (get_filename_without_extensions n) "_b" with
      | true =>
        simp only [hA, hB, Bool.or_true, Bool.true_and, Bool.false_or] at hact
        have hmem : strRemovesuffix (get_filename_without_extensions n)
            (strTakeRight (get_filename_without_extensions n) 2)
              ∉ get_partition_names_with_alias := by
          simpa using hact
        simp [cab_step, h1, hA, hB, hmem]
      | false => simp [cab_step, h1, hA, hB]

theorem foldl_cab_step_eq_of_inactive :
    ∀ (ns : List String) (images : FS),
      (∀ f ∈ images, slot_actionable f = false) → ns.foldl cab_step images = images
  | [], _, _ => rfl
  | n :: ns, images, h => by
    rw [List.foldl_cons, cab_step_eq_of_inactive h n]
    exact foldl_cab_step_eq_of_inactive ns images h

/-- C7 amended: `correct_ab_filenames` is a no-op on every state with no
actionable slotted file; in particular a second run is a no-op whenever the
first run's output contains no file whose stripped stem ends in `_a`/`_b`
with a recognized unslotted token.  (In general the second run is NOT a
no-op: it deletes the orphaned losing-slot file the first run can strand,
as the counterexample shows.) -/
theorem C7_amended_conditional_idempotence (images : FS)
    (h : ∀ f ∈ correct_ab_filenames images, slot_actionable f = false) :
    correct_ab_filenames (correct_ab_filenames images)
      = correct_ab_filenames images := by
  rw [correct_ab_filenames]
  exact foldl_cab_step_eq_of_inactive _ _ h

theorem C7_amended_conditional_idempotence_witness :
    (∀ f ∈ correct_ab_filenames [⟨"system.img", "CA"⟩, ⟨"system_b.img", "CB"⟩],
        slot_actionable f = false)
      ∧ correct_ab_filenames
          (correct_ab_filenames [⟨"system.img", "CA"⟩, ⟨"system_b.img", "CB"⟩])
        = correct_ab_filenames [⟨"system.img", "CA"⟩, ⟨"system_b.img", "CB"⟩] :=
  And.intro (by decide)
    (C7_amended_conditional_idempotence
      [⟨"system.img", "CA"⟩, ⟨"system_b.img", "CB"⟩] (by decide))

/-! ## C2: per-partition failure isolation in the extractor -/

theorem extracting_log_append (a b : List ExtractEvent) :
    extracting_log (a ++ b) = extracting_log a ++ extracting_log b :=
  List.filterMap_append a b _

theorem extracting_log_events_for (bootO fsO : String → Except String Unit)
    (raw_images : FS) (pt : String × Nat) :
    extracting_log (events_for bootO fsO raw_images pt)
      = if raw_images.isFile (pt.1 ++ ".img") then [pt.1] else [] := by
  rcases pt with ⟨p, t⟩
  cases h : raw_images.isFile (p ++ ".img") with
  | false => simp [events_for, extracting_log, h]
  | true =>
    simp only [events_for, h, Bool.not_true, Bool.false_eq_true, if_false, if_true]
    rw [extracting_log, List.filterMap_append, List.filterMap_append]
    split <;> simp [extracting_log, List.filterMap]

theorem extracting_log_flatMap (bootO fsO : String → Except String Unit)
    (raw_images : FS) :
    ∀ l : List (String × Nat),
      extracting_log (l.flatMap (events_for bootO fsO raw_images))
        = (l.map Prod.fst).filter (fun p => raw_images.isFile (p ++ ".img"))
  | [] => by simp [extracting_log]
  | pt :: l => by
    rw [List.flatMap_cons, extracting_log_append, extracting_log_events_for,
      extracting_log_flatMap bootO fsO raw_images l, List.map_cons, List.filter_cons]
    cases h : raw_images.isFile (pt.1 ++ ".img") <;> simp [h]

/-- C2: whatever the two extraction collaborators do — including failing on
every partition — `extract_partitions` attempts ("Extracting" log line)
exactly the partitions whose raw image exists, in registry declaration
order, and returns normally.  The caught failure modes are those of the
collaborators' spec contracts: any exception of the boot-image unpacker
(bare `except Exception`), a non-zero exit of the 7z extractor
(`except CalledProcessError`). -/
theorem C2_extraction_failures_isolated (bootO fsO : String → Except String Unit)
    (raw_images : FS) :
    extracting_log (extract_partitions bootO fsO raw_images)
      = get_partition_names.filter (fun p => raw_images.isFile (p ++ ".img")) := by
  rw [extract_partitions_eq_flatMap, extracting_log_flatMap]
  rfl

/-! ## C5: copy-back happens for BootImage partitions, never for Filesystem -/

theorem PARTITIONS_keys_nodup : (PARTITIONS.map Prod.fst).Nodup := by decide

theorem assoc_eq_of_nodup :
    ∀ {l : List (String × Nat)} {a : String} {b c : Nat},
      (l.map Prod.fst).Nodup → (a, b) ∈ l → (a, c) ∈ l → b = c := by
  intro l
  induction l with
  | nil => intro a b c _ hb; exact absurd hb (List.not_mem_nil _)
  | cons hd tl ih =>
    intro a b c hnd hb hc
    rw [List.map_cons, List.nodup_cons] at hnd
    rcases List.mem_cons.mp hb with hb1 | hb2
    · rcases List.mem_cons.mp hc with hc1 | hc2
      · rw [← hb1] at hc1
        exact ((Prod.ext_iff.mp hc1).2).symm
      · exfalso
        apply hnd.1
        rw [← hb1]
        exact List.mem_map.mpr ⟨(a, c), hc2, rfl⟩
    · rcases List.mem_cons.mp hc with hc1 | hc2
      · exfalso
        apply hnd.1
        rw [← hc1]
        exact List.mem_map.mpr ⟨(a, b), hb2, rfl⟩
      · exact ih hnd.2 hb2 hc2

theorem rawCopy_mem_events_for {bootO fsO : String → Except String Unit}
    {raw_images : FS} {pt : String × Nat} {q c : String}
    (h : ExtractEvent.rawCopy q c ∈ events_for bootO fsO raw_images pt) :
    pt.1 = q ∧ (pt.2 == RAW || pt.2 == BOOTIMAGE) = true := by
  rcases pt with ⟨x, ty⟩
  simp only [events_for] at h
  split at h
  · exact absurd h (List.not_mem_nil _)
  · split at h <;> split at h <;>
      simp_all [List.mem_cons, List.mem_append]

/-- C5: for every BootImage partition whose raw image is present, the event
sequence contains the unpack attempt (whatever its outcome, success or
exception) immediately followed by the verbatim raw-image copy into the
output root; and no Filesystem partition ever gets a raw copy. -/
theorem C5_bootimage_copy_back (bootO fsO : String → Except String Unit)
    (raw_images : FS) (p : String)
    (hp : (p, BOOTIMAGE) ∈ PARTITIONS)
    (hfile : raw_images.isFile (p ++ ".img") = true) :
    (∃ l1 l2, extract_partitions bootO fsO raw_images
        = l1 ++ ExtractEvent.bootAttempt p (bootO (p ++ ".img"))
            :: ExtractEvent.rawCopy p (raw_images.read (p ++ ".img")) :: l2)
    ∧ ∀ (q c : String), (q, FILESYSTEM) ∈ PARTITIONS →
        ExtractEvent.rawCopy q c ∉ extract_partitions bootO fsO raw_images := by
  constructor
  · obtain ⟨s, t, hsplit⟩ := List.append_of_mem hp
    have he : events_for bootO fsO raw_images (p, BOOTIMAGE)
        = [ExtractEvent.extracting p,
           ExtractEvent.bootAttempt p (bootO (p ++ ".img")),
           ExtractEvent.rawCopy p (raw_images.read (p ++ ".img"))] := by
      simp [events_for, hfile, BOOTIMAGE, RAW, FILESYSTEM]
    refine ⟨(s.flatMap (events_for bootO fsO raw_images)) ++ [ExtractEvent.extracting p],
      t.flatMap (events_for bootO fsO raw_images), ?_⟩
    rw [extract_partitions_eq_flatMap, hsplit, List.flatMap_append, List.flatMap_cons, he]
    simp
  · intro q c hq hmem
    rw [extract_partitions_eq_flatMap] at hmem
    obtain ⟨pt, hpt, hev⟩ := List.mem_flatMap.mp hmem
    rcases pt with ⟨x, ty⟩
    obtain ⟨hx, hty⟩ := rawCopy_mem_events_for hev
    have hx2 : x = q := hx
    subst hx2
    have hty2 : (ty == RAW || ty == BOOTIMAGE) = true := hty
    have hf : ty = FILESYSTEM := assoc_eq_of_nodup PARTITIONS_keys_nodup hpt hq
    rw [hf] at hty2
    exact absurd hty2 (by decide)

theorem C5_bootimage_copy_back_witness :
    (("boot", BOOTIMAGE) ∈ PARTITIONS
        ∧ FS.isFile [⟨"boot.img", "K"⟩] ("boot" ++ ".img") = true)
      ∧ ((∃ l1 l2, extract_partitions (fun _ => Except.error "unpack failed")
            (fun _ => Except.ok ()) [⟨"boot.img", "K"⟩]
          = l1 ++ ExtractEvent.bootAttempt "boot"
                ((fun _ => Except.error "unpack failed") ("boot" ++ ".img"))
              :: ExtractEvent.rawCopy "boot"
                (FS.read [⟨"boot.img", "K"⟩] ("boot" ++ ".img")) :: l2)
        ∧ ∀ (q c : String), (q, FILESYSTEM) ∈ PARTITIONS →
            ExtractEvent.rawCopy q c ∉ extract_partitions
              (fun _ => Except.error "unpack failed")
              (fun _ => Except.ok ()) [⟨"boot.img", "K"⟩]) :=
  And.intro (And.intro (by decide) (by decide))
    (C5_bootimage_copy_back (fun _ => Except.error "unpack failed")
      (fun _ => Except.ok ()) [⟨"boot.img", "K"⟩] "boot" (by decide) (by decide))

/-! ## Sorted-listing membership -/

theorem mem_insertSorted (le : String → String → Bool) (x y : String) :
    ∀ l : List String, y ∈ insertSorted le x l ↔ y = x ∨ y ∈ l
  | [] => by simp [insertSorted]
  | z :: l => by
    rw [insertSorted]
    split
    · simp [List.mem_cons]
    · rw [List.mem_cons, mem_insertSorted le x y l, List.mem_cons]
      tauto

theorem mem_sortColl (le : String → String → Bool) (y : String) :
    ∀ l : List String, y ∈ sortColl le l ↔ y ∈ l
  | [] => Iff.rfl
  | x :: l => by
    rw [sortColl, List.foldr_cons, mem_insertSorted, List.mem_cons]
    have := mem_sortColl le y l
    rw [sortColl] at this
    rw [this]

/-! ## C4: two-run determinism and temp cleanup -/

/-- C4 counterexample: the first `dumpyara` run succeeds; repeating the very
same invocation (same archive, same output root) makes `path.mkdir(parents=True)`
hit the existing output directory and raise `FileExistsError` — the second
run produces no output tree at all, refuting the round-trip claim as stated. -/
theorem C4_counterexample_second_run_raises :
    (dumpyara O0 none false).outcome = Except.ok ()
      ∧ (dumpyara O0 (some (dumpyara O0 none false).state) false).outcome
        = Except.error "FileExistsError" :=
  And.intro (by decide) rfl

theorem dumpyara_fresh_temps_none (O : DumpOracles) :
    (dumpyara O none false).state.tempExtracted = none
      ∧ (dumpyara O none false).state.tempRaw = none := by
  rcases hfa : fix_aliases_run (correct_ab_filenames (prepare_raw_images O.materialize))
      ALTERNATIVE_PARTITION_NAMES with ⟨raw2, oe⟩
  cases hu : O.unpack with
  | error e => simp [dumpyara, hu, cleanup]
  | ok af => cases oe <;> simp [dumpyara, hu, hfa, cleanup]

theorem dumpyara_fresh_temps_debug (O : DumpOracles) :
    (dumpyara O none true).state.tempExtracted.isSome = true
      ∧ (dumpyara O none true).state.tempRaw.isSome = true := by
  rcases hfa : fix_aliases_run (correct_ab_filenames (prepare_raw_images O.materialize))
      ALTERNATIVE_PARTITION_NAMES with ⟨raw2, oe⟩
  cases hu : O.unpack with
  | error e => simp [dumpyara, hu, cleanup]
  | ok af => cases oe <;> simp [dumpyara, hu, hfa, cleanup]

/-- C4 amended: with a fresh (non-existing) output directory, repeated runs
are the same pure function of the collaborator oracles, so two fresh runs
produce identical output trees and manifests; with `debug=false` no
temporary directory survives any exit path, and with `debug=true` both
temporary directories are present after the run.  Re-running into the SAME
output directory, however, raises `FileExistsError` at directory creation
(the counterexample), so the claim holds only for runs into fresh output
roots. -/
theorem C4_amended_fresh_run_determinism_cleanup (O : DumpOracles) (st : DumpState) :
    dumpyara O none false = dumpyara O none false
      ∧ (dumpyara O none false).state.tempExtracted = none
      ∧ (dumpyara O none false).state.tempRaw = none
      ∧ (dumpyara O none true).state.tempExtracted.isSome = true
      ∧ (dumpyara O none true).state.tempRaw.isSome = true
      ∧ (dumpyara O (some st) false).outcome = Except.error "FileExistsError" :=
  ⟨rfl, (dumpyara_fresh_temps_none O).1, (dumpyara_fresh_temps_none O).2,
    (dumpyara_fresh_temps_debug O).1, (dumpyara_fresh_temps_debug O).2, rfl⟩

/-! ## C9: pre-existing output directory -/

/-- C9 counterexample: when the pre-existing output directory contains a
leftover `temp_raw_images` subdirectory and `debug=false`, the run does
raise at directory creation, but the `finally` cleanup then REMOVES that
pre-existing temp subdirectory — the directory contents are not left
unchanged, refuting the claim at this input. -/
theorem C9_counterexample_preexisting_temp_removed :
    (dumpyara O0 (some st0) false).outcome = Except.error "FileExistsError"
      ∧ (dumpyara O0 (some st0) false).state ≠ st0 :=
  And.intro rfl (by decide)

/-- C9 amended: if the output directory already exists, the run raises
`FileExistsError` during directory creation, before the archive is unpacked
or any partition is processed (the result is independent of every
collaborator oracle); the pre-existing regular files are left unchanged; but
the cleanup in the `finally` block removes pre-existing
`temp_extracted_archive` / `temp_raw_images` subdirectories when
`debug=false` (with `debug=true` the state is left fully unchanged). -/
theorem C9_amended_preexisting_output (O Oother : DumpOracles) (st : DumpState) :
    (dumpyara O (some st) false).outcome = Except.error "FileExistsError"
      ∧ (dumpyara O (some st) true).outcome = Except.error "FileExistsError"
      ∧ dumpyara O (some st) false = dumpyara Oother (some st) false
      ∧ dumpyara O (some st) true = dumpyara Oother (some st) true
      ∧ (dumpyara O (some st) true).state = st
      ∧ (dumpyara O (some st) false).state
          = { st with tempExtracted := none, tempRaw := none }
      ∧ (dumpyara O (some st) false).state.outFiles = st.outFiles :=
  ⟨rfl, rfl, rfl, rfl, rfl, rfl, rfl⟩

/-! ## C10: manifest is built while the temp directories still exist -/

/-- C10: on a successful fresh run, the recursive listing that becomes
`all_files.txt` is taken from the output directory while both temporary
subdirectories still exist inside it — every archive-temp file and every
staged raw image appears in the manifest paths — and only afterwards does
the `finally` cleanup remove the two temp directories (absent from the
final state when `debug=false`). -/
theorem C10_manifest_before_cleanup (O : DumpOracles) (af raw2 : FS) (f g : FSFile)
    (hu : O.unpack = Except.ok af)
    (hfa : fix_aliases_run (correct_ab_filenames (prepare_raw_images O.materialize))
        ALTERNATIVE_PARTITION_NAMES = (raw2, none))
    (hf : f ∈ af) (hg : g ∈ raw2) :
    ("temp_extracted_archive/" ++ f.name)
        ∈ manifest_paths O (dump_outputs O raw2) af raw2
      ∧ ("temp_raw_images/" ++ g.name)
        ∈ manifest_paths O (dump_outputs O raw2) af raw2
      ∧ (dumpyara O none false).outcome = Except.ok ()
      ∧ (dumpyara O none false).state.outFiles
          = dump_outputs O raw2
            ++ [("all_files.txt",
                  String.intercalate "\n"
                    (manifest_paths O (dump_outputs O raw2) af raw2) ++ "\n")]
      ∧ (dumpyara O none false).state.tempExtracted = none
      ∧ (dumpyara O none false).state.tempRaw = none := by
  have hrun : dumpyara O none false
      = { outcome := Except.ok (),
          state := { outFiles := dump_outputs O raw2
                       ++ [("all_files.txt",
                             String.intercalate "\n"
                               (manifest_paths O (dump_outputs O raw2) af raw2) ++ "\n")],
                     tempExtracted := none, tempRaw := none } } := by
    simp only [dumpyara, hu, hfa, cleanup]
    simp
  refine ⟨?_, ?_, by rw [hrun], by rw [hrun], by rw [hrun], by rw [hrun]⟩
  · rw [manifest_paths, mem_sortColl, List.append_assoc, List.mem_append]
    exact Or.inr (List.mem_append.mpr (Or.inl (List.mem_map.mpr ⟨f, hf, rfl⟩)))
  · rw [manifest_paths, mem_sortColl, List.append_assoc, List.mem_append]
    exact Or.inr (List.mem_append.mpr (Or.inr (List.mem_map.mpr ⟨g, hg, rfl⟩)))

theorem C10_manifest_before_cleanup_witness :
    ("temp_extracted_archive/" ++ "pkg.bin")
        ∈ manifest_paths O1 (dump_outputs O1 [⟨"boot.img", "K"⟩])
            [⟨"pkg.bin", "P"⟩] [⟨"boot.img", "K"⟩]
      ∧ ("temp_raw_images/" ++ "boot.img")
        ∈ manifest_paths O1 (dump_outputs O1 [⟨"boot.img", "K"⟩])
            [⟨"pkg.bin", "P"⟩] [⟨"boot.img", "K"⟩]
      ∧ (dumpyara O1 none false).outcome = Except.ok ()
      ∧ (dumpyara O1 none false).state.tempExtracted = none
      ∧ (dumpyara O1 none false).state.tempRaw = none := by
  have h := C10_manifest_before_cleanup O1 [⟨"pkg.bin", "P"⟩] [⟨"boot.img", "K"⟩]
    ⟨"pkg.bin", "P"⟩ ⟨"boot.img", "K"⟩ rfl (by decide) (by decide) (by decide)
  exact ⟨h.1, h.2.1, h.2.2.1, h.2.2.2.2.1, h.2.2.2.2.2⟩

/-! ## Filename-decomposition lemmas (towards C8)

These characterize `suffixesList` so that the candidate paths
`correct_ab_filenames` builds (`<token><suffixes>`, `<token>_a<suffixes>`,
`<token>_b<suffixes>`) can be shown to carry recognized partition tokens. -/

theorem splitOnDot_ne_nil : ∀ l : List Char, splitOnDot l ≠ []
  | [] => by simp [splitOnDot]
  | c :: rest => by
    rw [splitOnDot]
    split
    · simp
    · split <;> simp

theorem splitOnDot_eq_single {a : List Char} (h : '.' ∉ a) : splitOnDot a = [a] := by
  induction a with
  | nil => rfl
  | cons c t ih =>
    have hc : ¬ c = '.' := fun e => h (e ▸ List.mem_cons_self c t)
    have ht : splitOnDot t = [t] := ih (fun hm => h (List.mem_cons_of_mem _ hm))
    simp [splitOnDot, hc, ht]

theorem splitOnDot_append {a : List Char} (r : List Char) (h : '.' ∉ a) :
    splitOnDot (a ++ '.' :: r) = a :: splitOnDot r := by
  induction a with
  | nil => simp [splitOnDot]
  | cons c t ih =>
    have hc : ¬ c = '.' := fun e => h (e ▸ List.mem_cons_self c t)
    have ht := ih (fun hm => h (List.mem_cons_of_mem _ hm))
    simp [splitOnDot, hc, ht]

theorem joinDotted_splitOnDot : ∀ m : List Char, joinDotted (splitOnDot m) = '.' :: m
  | [] => rfl
  | c :: t => by
    by_cases hc : c = '.'
    · subst hc
      rw [splitOnDot, if_pos rfl, joinDotted, joinDotted_splitOnDot t]
      rfl
    · rw [splitOnDot, if_neg hc]
      cases h : splitOnDot t with
      | nil => exact absurd h (splitOnDot_ne_nil t)
      | cons p ps =>
        have IH := joinDotted_splitOnDot t
        rw [h, joinDotted] at IH
        have hpt : p ++ joinDotted ps = t := by simpa using IH
        rw [joinDotted]
        simp [hpt]

theorem dropDots_of_head {l : List Char} (h : l.head? ≠ some '.') : dropDots l = l := by
  cases l with
  | nil => rfl
  | cons c t =>
    have hc : ¬ c = '.' := fun e => h (by simp [e])
    simp [dropDots, List.dropWhile, hc]

theorem dropDots_facts : ∀ l : List Char, l ≠ [] → l.getLast? ≠ some '.' →
    dropDots l ≠ [] ∧ (dropDots l).getLast? = l.getLast?
  | [], hne, _ => absurd rfl hne
  | [c], _, h => by
    have hc : ¬ c = '.' := by simpa using h
    simp [dropDots, List.dropWhile, hc]
  | c :: d :: t, _, h => by
    have ht : (d :: t).getLast? ≠ some '.' := by rwa [List.getLast?_cons_cons] at h
    by_cases hc : c = '.'
    · subst hc
      have hdt : dropDots ('.' :: d :: t) = dropDots (d :: t) := by
        simp [dropDots, List.dropWhile]
      obtain ⟨h1, h2⟩ := dropDots_facts (d :: t) (List.cons_ne_nil d t) ht
      rw [hdt, List.getLast?_cons_cons]
      exact ⟨h1, h2⟩
    · have hdt : dropDots (c :: d :: t) = c :: d :: t := by
        simp [dropDots, List.dropWhile, hc]
      rw [hdt]
      exact ⟨List.cons_ne_nil c _, rfl⟩

theorem getLast?_append_right {l r : List Char} (h : r ≠ []) :
    (l ++ r).getLast? = r.getLast? := by
  rw [List.getLast?_append]
  cases hx : r.getLast? with
  | none => exact absurd (List.getLast?_eq_none_iff.mp hx) h
  | some x => rfl

theorem getLast?_not_dot_of_not_mem {a : List Char} (h : '.' ∉ a) :
    a.getLast? ≠ some '.' := by
  intro e
  exact h (List.mem_of_mem_getLast? (by rw [e]; rfl))

/-- Shape of every value of `suffixesList`: empty, or starting with a dot and
not ending in one. -/
theorem suffixes_shape (l : List Char) :
    suffixesList l = []
      ∨ ((suffixesList l).head? = some '.' ∧ (suffixesList l).getLast? ≠ some '.') := by
  rw [suffixesList]
  split
  · exact Or.inl rfl
  · rename_i hl
    cases l with
    | nil => exact Or.inl rfl
    | cons c t =>
      obtain ⟨hm_ne, hm_last⟩ := dropDots_facts (c :: t) (List.cons_ne_nil c t) hl
      cases hsp : splitOnDot (dropDots (c :: t)) with
      | nil => exact absurd hsp (splitOnDot_ne_nil _)
      | cons p ps =>
        cases ps with
        | nil => exact Or.inl rfl
        | cons q qs =>
          right
          constructor
          · simp [joinDotted]
          · have h4 := joinDotted_splitOnDot (dropDots (c :: t))
            rw [hsp, joinDotted] at h4
            have hm_eq : dropDots (c :: t) = p ++ joinDotted (q :: qs) := by
              have := (by simpa using h4 : p ++ joinDotted (q :: qs) = dropDots (c :: t))
              exact this.symm
            have hjoin_ne : joinDotted (q :: qs) ≠ [] := by simp [joinDotted]
            have h5 : (p ++ joinDotted (q :: qs)).getLast?
                = (joinDotted (q :: qs)).getLast? := getLast?_append_right hjoin_ne
            show (joinDotted (q :: qs)).getLast? ≠ some '.'
            rw [← h5, ← hm_eq, hm_last]
            exact hl

/-- The suffixes of `a ++ s` are exactly `s`, when `a` is a plausible stem
(nonempty, dot-free, not starting with a dot) and `s` has the shape of a
suffix string. -/
theorem suffixesList_append {a s : List Char} (ha : '.' ∉ a) (hne : a ≠ [])
    (hh : a.head? ≠ some '.')
    (hs : s = [] ∨ (s.head? = some '.' ∧ s.getLast? ≠ some '.')) :
    suffixesList (a ++ s) = s := by
  rcases hs with rfl | ⟨hsh, hsl⟩
  · rw [List.append_nil, suffixesList, if_neg (getLast?_not_dot_of_not_mem ha),
      dropDots_of_head hh, splitOnDot_eq_single ha]
    rfl
  · cases s with
    | nil => exact absurd hsh (by simp)
    | cons x r =>
      have hx : x = '.' := by simpa using hsh
      subst hx
      have hlast : (a ++ '.' :: r).getLast? = ('.' :: r).getLast? :=
        getLast?_append_right (List.cons_ne_nil _ _)
      have hhead : (a ++ '.' :: r).head? ≠ some '.' := by
        cases a with
        | nil => exact absurd rfl hne
        | cons y ys => simpa using hh
      rw [suffixesList, if_neg (by rw [hlast]; exact hsl), dropDots_of_head hhead,
        splitOnDot_append r ha, List.drop_one, List.tail_cons]
      exact joinDotted_splitOnDot r

/-- The stem of `a ++ s` is exactly `a`, under the same side conditions. -/
theorem stem_append {a s : List Char} (ha : '.' ∉ a) (hne : a ≠ [])
    (hh : a.head? ≠ some '.')
    (hs : s = [] ∨ (s.head? = some '.' ∧ s.getLast? ≠ some '.')) :
    removesuffixList (a ++ s) (suffixesList (a ++ s)) = a := by
  rw [suffixesList_append ha hne hh hs, removesuffixList,
    if_pos ((List.isSuffixOf_iff_suffix).mpr (List.suffix_append a s)),
    List.length_append, Nat.add_sub_cancel, List.take_left]

/-! ## String-level token lemmas -/

theorem str_ext {s t : String} (h : s.data = t.data) : s = t := by
  cases s
  cases t
  exact congrArg String.mk h

/-- Every recognized token (registry or alias name) is a plausible stem:
dot-free, nonempty, not starting with a dot. -/
theorem token_facts : ∀ u ∈ get_partition_names_with_alias,
    ('.' ∉ u.data ∧ u.data ≠ [] ∧ u.data.head? ≠ some '.') := by decide

/-- Alias table entries: the alias file name `<alt>.img` decomposes to the
alias token, which is itself a recognized name. -/
theorem alias_fst_facts : ∀ pr ∈ ALTERNATIVE_PARTITION_NAMES,
    (base_token (pr.1 ++ ".img") = pr.1
      ∧ pr.1 ∈ get_partition_names_with_alias) := by decide

/-- The slotted candidate paths built by `correct_ab_filenames` carry the
recognized unslotted token: `base_token (u ++ "_a"/"_b" ++ suffixes) = u`. -/
theorem base_token_slot {u : String} (hu : u ∈ get_partition_names_with_alias)
    (sl : String) (hsl : sl = "_a" ∨ sl = "_b") (n : String) :
    base_token (u ++ sl ++ get_filename_suffixes n) = u := by
  obtain ⟨hdot, hne, hhd⟩ := token_facts u hu
  have hsl_dot : '.' ∉ sl.data := by rcases hsl with rfl | rfl <;> decide
  have hsl_len : sl.data.length = 2 := by rcases hsl with rfl | rfl <;> decide
  have hadot : '.' ∉ u.data ++ sl.data := by
    intro hm
    rcases List.mem_append.mp hm with h | h
    · exact hdot h
    · exact hsl_dot h
  have hane : u.data ++ sl.data ≠ [] := by
    intro e
    exact hne (List.append_eq_nil.mp e).1
  have hahd : (u.data ++ sl.data).head? ≠ some '.' := by
    have he : (u.data ++ sl.data).head? = u.data.head? := by
      cases hc : u.data with
      | nil => exact absurd hc hne
      | cons c cs => rfl
    rw [he]
    exact hhd
  have hdata : (u ++ sl ++ get_filename_suffixes n).data
      = (u.data ++ sl.data) ++ suffixesList n.data := by
    rw [String.data_append, String.data_append]
    rfl
  have hstem : get_filename_without_extensions (u ++ sl ++ get_filename_suffixes n)
      = u ++ sl := by
    apply str_ext
    show removesuffixList (u ++ sl ++ get_filename_suffixes n).data
        (suffixesList (u ++ sl ++ get_filename_suffixes n).data) = (u ++ sl).data
    rw [hdata, String.data_append]
    exact stem_append hadot hane hahd (suffixes_shape n.data)
  have hends : strEndsWith (u ++ sl) sl = true := by
    rw [strEndsWith, String.data_append]
    exact (List.isSuffixOf_iff_suffix).mpr (List.suffix_append _ _)
  have htr : strTakeRight (u ++ sl) 2 = sl := by
    apply str_ext
    show (u ++ sl).data.drop ((u ++ sl).data.length - 2) = sl.data
    rw [String.data_append, List.length_append, hsl_len, Nat.add_sub_cancel]
    exact List.drop_left u.data sl.data
  have hrm : strRemovesuffix (u ++ sl) sl = u := by
    apply str_ext
    show removesuffixList (u ++ sl).data sl.data = u.data
    rw [String.data_append, removesuffixList,
      if_pos ((List.isSuffixOf_iff_suffix).mpr (List.suffix_append _ _)),
      List.length_append, hsl_len, Nat.add_sub_cancel]
    exact List.take_left u.data sl.data
  have hcond : (strEndsWith (u ++ sl) "_a" || strEndsWith (u ++ sl) "_b") = true := by
    rcases hsl with rfl | rfl <;> simp [hends]
  simp only [base_token, hstem, hcond, if_true]
  rw [htr]
  exact hrm

/-! ## Preservation of unrecognized-token files (C8) -/

theorem FS.isFile_unlink_self (fs : FS) (n : String) :
    (fs.unlink n).isFile n = false := by
  simp [FS.unlink, FS.isFile, List.any_eq_true, List.mem_filter]

theorem cab_step_keeps {images : FS} {n : String} {f : FSFile}
    (hf : f ∈ images)
    (hrec : base_token f.name ∉ get_partition_names_with_alias) :
    f ∈ cab_step images n := by
  cases h1 : images.isFile n with
  | false => simpa [cab_step, h1] using hf
  | true =>
    by_cases hor : strEndsWith (get_filename_without_extensions n) "_a" = true
        ∨ strEndsWith (get_filename_without_extensions n) "_b" = true
    case neg =>
      have hA : strEndsWith (get_filename_without_extensions n) "_a" = false := by
        cases h : strEndsWith (get_filename_without_extensions n) "_a"
        · rfl
        · exact absurd (Or.inl h) hor
      have hB : strEndsWith (get_filename_without_extensions n) "_b" = false := by
        cases h : strEndsWith (get_filename_without_extensions n) "_b"
        · rfl
        · exact absurd (Or.inr h) hor
      simpa [cab_step, h1, hA, hB] using hf
    case pos =>
      have hcond : (!strEndsWith (get_filename_without_extensions n) "_a"
          && !strEndsWith (get_filename_without_extensions n) "_b") = false := by
        rcases hor with h | h <;> simp [h]
      have hbase : base_token n
          = strRemovesuffix (get_filename_without_extensions n)
              (strTakeRight (get_filename_without_extensions n) 2) := by
        have hc2 : (strEndsWith (get_filename_without_extensions n) "_a"
            || strEndsWith (get_filename_without_extensions n) "_b") = true := by
          rcases hor with h | h <;> simp [h]
        simp [base_token, hc2]
      cases hmem : get_partition_names_with_alias.contains
          (strRemovesuffix (get_filename_without_extensions n)
            (strTakeRight (get_filename_without_extensions n) 2)) with
      | false =>
        have hnmem : strRemovesuffix (get_filename_without_extensions n)
            (strTakeRight (get_filename_without_extensions n) 2)
              ∉ get_partition_names_with_alias := by
          simpa using hmem
        simpa [cab_step, h1, hcond, hmem, hnmem] using hf
      | true =>
        have humem : strRemovesuffix (get_filename_without_extensions n)
            (strTakeRight (get_filename_without_extensions n) 2)
              ∈ get_partition_names_with_alias :=
          List.mem_of_elem_eq_true hmem
        have hfne : f.name ≠ n := by
          intro e
          apply hrec
          rw [e, hbase]
          exact humem
        cases hnon : images.isFile
            (strRemovesuffix (get_filename_without_extensions n)
                (strTakeRight (get_filename_without_extensions n) 2)
              ++ get_filename_suffixes n) with
        | true =>
          simp only [cab_step, h1, hcond, hmem, hnon, Bool.not_false, Bool.not_true,
            Bool.false_eq_true, if_false, if_true]
          exact FS.mem_unlink hf hfne
        | false =>
          have hnedst : f.name
              ≠ strRemovesuffix (get_filename_without_extensions n)
                  (strTakeRight (get_filename_without_extensions n) 2)
                ++ get_filename_suffixes n :=
            FS.ne_of_not_isFile hf hnon
          cases ha : images.isFile
              (strRemovesuffix (get_filename_without_extensions n)
                  (strTakeRight (get_filename_without_extensions n) 2)
                ++ "_a" ++ get_filename_suffixes n) with
          | true =>
            simp only [cab_step, h1, hcond, hmem, hnon, ha, Bool.not_false, Bool.not_true,
              Bool.false_eq_true, if_false, if_true]
            apply FS.mem_move hf ?nea hnedst
            case nea =>
              intro e
              apply hrec
              rw [e, base_token_slot humem "_a" (Or.inl rfl) n]
              exact humem
          | false =>
            cases hb : images.isFile
                (strRemovesuffix (get_filename_without_extensions n)
                    (strTakeRight (get_filename_without_extensions n) 2)
                  ++ "_b" ++ get_filename_suffixes n) with
            | true =>
              simp only [cab_step, h1, hcond, hmem, hnon, ha, hb, Bool.not_false,
                Bool.not_true, Bool.false_eq_true, if_false, if_true]
              apply FS.mem_move hf ?neb hnedst
              case neb =>
                intro e
                apply hrec
                rw [e, base_token_slot humem "_b" (Or.inr rfl) n]
                exact humem
            | false =>
              simpa [cab_step, h1, hcond, hmem, hnon, ha, hb] using hf

theorem cab_foldl_keeps {f : FSFile}
    (hrec : base_token f.name ∉ get_partition_names_with_alias) :
    ∀ (ns : List String) (images : FS), f ∈ images → f ∈ ns.foldl cab_step images
  | [], _, hf => hf
  | n :: ns, images, hf => by
    rw [List.foldl_cons]
    exact cab_foldl_keeps hrec ns (cab_step images n) (cab_step_keeps hf hrec)

theorem fix_aliases_run_keeps {f : FSFile}
    (hrec : base_token f.name ∉ get_partition_names_with_alias) :
    ∀ (pairs : List (String × String)) (images : FS), f ∈ images →
      (∀ pr ∈ pairs, base_token (pr.1 ++ ".img") = pr.1
          ∧ pr.1 ∈ get_partition_names_with_alias) →
      ∀ images2, fix_aliases_run images pairs = (images2, none) → f ∈ images2
  | [], images, hf, _, images2, heq => by
    rw [fix_aliases_run] at heq
    cases heq
    exact hf
  | (alt, nm) :: rest, images, hf, hps, images2, heq => by
    have hpr := hps (alt, nm) (List.mem_cons_self _ _)
    have hrest : ∀ pr ∈ rest, base_token (pr.1 ++ ".img") = pr.1
        ∧ pr.1 ∈ get_partition_names_with_alias :=
      fun pr hm => hps pr (List.mem_cons_of_mem _ hm)
    rw [fix_aliases_run] at heq
    cases hisf : images.isFile (alt ++ ".img") with
    | false =>
      rw [hisf] at heq
      simp only [Bool.not_false, if_true] at heq
      exact fix_aliases_run_keeps hrec rest images hf hrest images2 heq
    | true =>
      rw [hisf] at heq
      simp only [Bool.not_true, Bool.false_eq_true, if_false] at heq
      cases hcol : images.isFile (nm ++ ".img") with
      | true =>
        rw [hcol] at heq
        simp only [if_true, FS.isFile_unlink_self, Bool.false_eq_true, if_false] at heq
        exact absurd (congrArg Prod.snd heq) (by simp)
      | false =>
        rw [hcol] at heq
        simp only [Bool.false_eq_true, if_false, hisf, if_true] at heq
        have hnealt : f.name ≠ alt ++ ".img" := by
          intro e
          apply hrec
          rw [e, hpr.1]
          exact hpr.2
        have hnenm : f.name ≠ nm ++ ".img" := FS.ne_of_not_isFile hf hcol
        exact fix_aliases_run_keeps hrec rest _ (FS.mem_move hf hnealt hnenm)
          hrest images2 heq

theorem events_for_partition {bootO fsO : String → Except String Unit}
    {raw_images : FS} {x : String} {ty : Nat} {ev : ExtractEvent}
    (hev : ev ∈ events_for bootO fsO raw_images (x, ty)) :
    event_partition ev = x := by
  simp only [events_for] at hev
  split at hev
  · exact absurd hev (List.not_mem_nil _)
  · rcases List.mem_append.mp hev with h2 | h2
    · rcases List.mem_append.mp h2 with h3 | h3
      · rw [List.mem_singleton] at h3
        subst h3
        rfl
      · split at h3
        · rw [List.mem_singleton] at h3
          subst h3
          rfl
        · split at h3
          · rw [List.mem_singleton] at h3
            subst h3
            rfl
          · exact absurd h3 (List.not_mem_nil _)
    · split at h2
      · rw [List.mem_singleton] at h2
        subst h2
        rfl
      · exact absurd h2 (List.not_mem_nil _)

theorem event_partition_mem {bootO fsO : String → Except String Unit}
    {raw_images : FS} {ev : ExtractEvent}
    (h : ev ∈ extract_partitions bootO fsO raw_images) :
    event_partition ev ∈ get_partition_names := by
  rw [extract_partitions_eq_flatMap] at h
  obtain ⟨pt, hpt, hev⟩ := List.mem_flatMap.mp h
  have hx : event_partition ev = pt.1 := by
    rcases pt with ⟨x, ty⟩
    exact events_for_partition hev
  rw [hx, get_partition_names]
  exact List.mem_map.mpr ⟨pt, hpt, rfl⟩

/-- C8: a staging file whose partition token is neither a registry name nor
an alias name survives SlotResolver and AliasResolver untouched (same name,
same content), and PartitionExtractor never produces an event referencing
that token. -/
theorem C8_unrecognized_tokens_untouched (images : FS) (f : FSFile)
    (hf : f ∈ images)
    (hrec : base_token f.name ∉ get_partition_names_with_alias) :
    f ∈ correct_ab_filenames images
      ∧ (∀ images2, fix_aliases images = Except.ok images2 → f ∈ images2)
      ∧ (∀ (bootO fsO : String → Except String Unit) (raw_images : FS)
          (ev : ExtractEvent), ev ∈ extract_partitions bootO fsO raw_images →
            event_partition ev ≠ base_token f.name) := by
  refine ⟨cab_foldl_keeps hrec _ _ hf, ?_, ?_⟩
  · intro images2 heq
    rw [fix_aliases] at heq
    rcases hr : fix_aliases_run images ALTERNATIVE_PARTITION_NAMES with ⟨im2, oe⟩
    rw [hr] at heq
    cases oe with
    | some e => exact absurd heq (by simp)
    | none =>
      have him : im2 = images2 := by simpa using heq
      rw [← him]
      exact fix_aliases_run_keeps hrec ALTERNATIVE_PARTITION_NAMES images hf
        alias_fst_facts im2 hr
  · intro bootO fsO raw_images ev hev e
    apply hrec
    rw [← e]
    rw [get_partition_names_with_alias]
    exact List.mem_append_left _ (event_partition_mem hev)

theorem C8_unrecognized_tokens_untouched_witness :
    ((⟨"foo.img", "F"⟩ : FSFile) ∈ ([⟨"foo.img", "F"⟩, ⟨"boot_a.img", "B"⟩] : FS)
        ∧ base_token "foo.img" ∉ get_partition_names_with_alias)
      ∧ ((⟨"foo.img", "F"⟩ : FSFile)
            ∈ correct_ab_filenames [⟨"foo.img", "F"⟩, ⟨"boot_a.img", "B"⟩]
          ∧ (∀ images2, fix_aliases [⟨"foo.img", "F"⟩, ⟨"boot_a.img", "B"⟩]
              = Except.ok images2 → (⟨"foo.img", "F"⟩ : FSFile) ∈ images2)
          ∧ (∀ (bootO fsO : String → Except String Unit) (raw_images : FS)
              (ev : ExtractEvent), ev ∈ extract_partitions bootO fsO raw_images →
                event_partition ev ≠ base_token "foo.img")) :=
  And.intro (And.intro (by decide) (by decide))
    (C8_unrecognized_tokens_untouched [⟨"foo.img", "F"⟩, ⟨"boot_a.img", "B"⟩]
      ⟨"foo.img", "F"⟩ (by decide) (by decide))
